import Mathlib

/-!
# TalkToDocs — verification of the document indexing and retrieval engine

Shallow embedding of the core of the TalkToDocs repository
(`document_processor.py`, `main.py`) and proofs about it.

Strings are modelled as `List Char` (Python `str` is a sequence of code
points).  Machine floats appear only as embedding-vector components and
L2 distances; they are modelled as `Rat` (exact arithmetic), with the one
comparison against the float literal `chunk_size * 0.5` modelled exactly
(`0.5 * n` is exactly representable for every integer `n` in the range of
interest, so `break_point > chunk_size * 0.5` is `2 * break_point > chunk_size`).
-/

namespace TalkToDocs

/-! ## Python string primitives -/

/-- Clamp an (possibly negative) Python slice index into `[0, n]`:
negative indices count from the end, and out-of-range indices clamp. -/
def pyBound (n : Nat) (i : Int) : Nat :=
  if i < 0 then (i + n).toNat else min i.toNat n

/-- Python slice `s[i:j]` on a list of characters. -/
def pySlice (l : List Char) (i j : Int) : List Char :=
  (l.take (pyBound l.length j)).drop (pyBound l.length i)

/-- Python `s.rfind(c)` for a single-character needle: index of the last
occurrence, `-1` when absent. -/
def rfindChar (l : List Char) (c : Char) : Int :=
  match l.reverse.findIdx? (· = c) with
  | some k => ((l.length - 1 - k : Nat) : Int)
  | none => -1

/-- ASCII part of Python's `str.strip` whitespace set (the inputs this
repository strips are ASCII text). -/
def isPySpace (c : Char) : Bool :=
  c = ' ' || c = '\t' || c = '\n' || c = '\r' || c = '\x0b' || c = '\x0c'

/-- Python `s.strip()`: drop leading and trailing whitespace. -/
def pyStrip (l : List Char) : List Char :=
  ((l.dropWhile isPySpace).reverse.dropWhile isPySpace).reverse

/-! ## `DocumentProcessor.chunk_text` (document_processor.py lines 160-182)

```python
chunks = []
start = 0
while start < len(text):
    end = start + self.chunk_size
    chunk = text[start:end]
    if end < len(text):
        last_period = chunk.rfind('.')
        last_newline = chunk.rfind('\n')
        break_point = max(last_period, last_newline)
        if break_point > self.chunk_size * 0.5:
            chunk = chunk[:break_point + 1]
            end = start + break_point + 1
    chunks.append(chunk.strip())
    start = end - self.chunk_overlap
return [c for c in chunks if c]
```

One loop iteration is `chunkStep`; the loop is `chunkTextFuel`, with `none`
meaning the `while` loop has not finished within the given fuel (the Python
loop has no other exit: no statement in the body can raise). -/

/-- One iteration of the `chunk_text` loop body: returns the chunk appended
(before the final non-empty filter) and the next value of `start`. -/
def chunkStep (cs co : Nat) (text : List Char) (start : Int) :
    List Char × Int :=
  let n : Int := text.length
  let end0 : Int := start + cs
  let chunk0 := pySlice text start end0
  if end0 < n then
    let bp := max (rfindChar chunk0 '.') (rfindChar chunk0 '\n')
    if 2 * bp > (cs : Int) then
      (pyStrip (pySlice chunk0 0 (bp + 1)), start + bp + 1 - co)
    else
      (pyStrip chunk0, end0 - co)
  else
    (pyStrip chunk0, end0 - co)

/-- The `chunk_text` loop with fuel; `none` = the loop has not terminated
after `fuel` iterations. -/
def chunkTextFuel (cs co : Nat) (text : List Char) :
    Nat → Int → List (List Char) → Option (List (List Char))
  | 0, start, acc =>
    if start < (text.length : Int) then none
    else some (acc.filter (fun c => !c.isEmpty))
  | fuel + 1, start, acc =>
    if start < (text.length : Int) then
      chunkTextFuel cs co text fuel (chunkStep cs co text start).2
        (acc ++ [(chunkStep cs co text start).1])
    else some (acc.filter (fun c => !c.isEmpty))

/-- `DocumentProcessor.chunk_text`.  Fuel `length + 1` suffices whenever the
loop makes strict progress (proved below for `2 * overlap ≤ chunk_size`,
which covers the shipped configuration `CHUNK_SIZE = 500`, `CHUNK_OVERLAP = 50`). -/
def chunkText (cs co : Nat) (text : List Char) : Option (List (List Char)) :=
  chunkTextFuel cs co text (text.length + 1) 0 []

/-- `chunk_text` terminates on `text` (the Python `while` loop exits). -/
def chunkTerminates (cs co : Nat) (text : List Char) : Prop :=
  ∃ fuel r, chunkTextFuel cs co text fuel 0 [] = some r

/-! ### Chunker lemmas -/

/-- When `2 * overlap ≤ chunk_size`, every iteration of the `chunk_text`
loop strictly advances `start`, truncated iterations included (there the
break point satisfies `2 * bp > chunk_size ≥ 2 * overlap`). -/
lemma chunkStep_advance (cs co : Nat) (text : List Char) (start : Int)
    (h1 : 0 < cs) (h2 : 2 * co ≤ cs) :
    start + 1 ≤ (chunkStep cs co text start).2 := by
  unfold chunkStep
  dsimp only
  split_ifs with h h'
  · omega
  · omega
  · omega

/-- With strict progress, fuel `start + fuel ≥ length` suffices for the
loop to finish. -/
lemma chunkTextFuel_total (cs co : Nat) (text : List Char)
    (h1 : 0 < cs) (h2 : 2 * co ≤ cs) :
    ∀ (fuel : Nat) (start : Int) (acc : List (List Char)),
      (text.length : Int) ≤ start + fuel →
      ∃ r, chunkTextFuel cs co text fuel start acc = some r := by
  intro fuel
  induction fuel with
  | zero =>
    intro start acc hle
    rw [chunkTextFuel]
    rw [if_neg (by omega)]
    exact ⟨_, rfl⟩
  | succ n ih =>
    intro start acc hle
    rw [chunkTextFuel]
    by_cases hlt : start < (text.length : Int)
    · rw [if_pos hlt]
      have hadv := chunkStep_advance cs co text start h1 h2
      exact ih _ _ (by omega)
    · rw [if_neg hlt]
      exact ⟨_, rfl⟩

/-- The state of the loop at `chunk_size = 6`, `overlap = 5` on
`"aaaa.aaaaaa"` returns to `start = 0` after one iteration: the window is
`"aaaa.a"`, the break point is 4 (`2*4 > 6`), so `end = 5` and
`start = 5 - 5 = 0`. -/
lemma chunkStep_cycle :
    chunkStep 6 5 "aaaa.aaaaaa".data 0 = ("aaaa.".data, 0) := by decide

/-- Consequently the loop never terminates there, whatever the fuel. -/
lemma chunkTextFuel_cycle_none :
    ∀ (fuel : Nat) (acc : List (List Char)),
      chunkTextFuel 6 5 "aaaa.aaaaaa".data fuel 0 acc = none := by
  intro fuel
  induction fuel with
  | zero =>
    intro acc
    rw [chunkTextFuel]
    rw [if_pos (by decide)]
  | succ n ih =>
    intro acc
    rw [chunkTextFuel]
    rw [if_pos (by decide)]
    simp only [chunkStep_cycle]
    exact ih _

/-- C3 counterexample: with the positive configuration
`chunkSize = 6 > overlap = 5` (so `overlap < chunkSize` holds) the
`chunk_text` loop runs forever on the text `"aaaa.aaaaaa"` — the claim's
termination guarantee for every `overlap < chunkSize` is false. -/
theorem chunkText_nontermination_cex :
    5 < 6 ∧ ¬ chunkTerminates 6 5 "aaaa.aaaaaa".data := by
  refine ⟨by decide, ?_⟩
  rintro ⟨fuel, r, h⟩
  rw [chunkTextFuel_cycle_none] at h
  cases h

/-- C3 (amended): for every text and positive `chunkSize`, `overlap` with
`2 * overlap ≤ chunkSize` (the shipped configuration is 500/50), the window
start strictly advances on every loop iteration — truncated iterations
included — and `chunk_text` terminates, returning a value without raising. -/
theorem chunkText_terminates (cs co : Nat) (text : List Char)
    (h1 : 0 < co) (h2 : 2 * co ≤ cs) :
    (∀ start : Int, start + 1 ≤ (chunkStep cs co text start).2) ∧
      chunkTerminates cs co text ∧ ∃ r, chunkText cs co text = some r := by
  have hcs : 0 < cs := by omega
  refine ⟨fun start => chunkStep_advance cs co text start hcs h2, ?_, ?_⟩
  · obtain ⟨r, hr⟩ :=
      chunkTextFuel_total cs co text hcs h2 (text.length + 1) 0 [] (by omega)
    exact ⟨text.length + 1, r, hr⟩
  · exact chunkTextFuel_total cs co text hcs h2 (text.length + 1) 0 [] (by omega)

/-- Witness for C3's amended theorem at `chunkSize = 10`, `overlap = 2`,
text `"hello"`. -/
theorem chunkText_terminates_witness :
    ∃ r, chunkText 10 2 "hello".data = some r :=
  (chunkText_terminates 10 2 "hello".data (by decide) (by decide)).2.2

/-- C9 counterexample: with `chunkSize = 5`, `overlap = 3`
(`overlap < chunkSize`), the non-empty text `"aaaa"` of length `4 < 5`
is split into TWO chunks `["aaaa", "aa"]` — after the first full window
the new start is `5 - 3 = 2 < 4`, so a second (overlap-only) window is
emitted — refuting "exactly one chunk". -/
theorem chunkText_short_two_chunks_cex :
    "aaaa".data ≠ [] ∧ "aaaa".data.length < 5 ∧
      chunkText 5 3 "aaaa".data = some ["aaaa".data, "aa".data] := by
  refine ⟨by decide, by decide, ?_⟩
  decide

/-- C9 (amended): empty input yields the empty sequence (not an error); a
text whose trimmed form is non-empty and whose length is at most
`chunkSize - overlap` yields exactly one chunk, the trimmed input. -/
theorem chunkText_short_single (cs co : Nat) (text : List Char)
    (h1 : 0 < co) (_h2 : co < cs) :
    chunkText cs co [] = some [] ∧
      (pyStrip text ≠ [] → text.length + co ≤ cs →
        chunkText cs co text = some [pyStrip text]) := by
  constructor
  · rw [chunkText]
    simp [chunkTextFuel]
  · intro hne hlen
    have hne' : text ≠ [] := fun h => hne (by rw [h]; rfl)
    have hpos : 0 < text.length := List.length_pos.mpr hne'
    rw [chunkText, chunkTextFuel]
    rw [if_pos (by exact_mod_cast hpos)]
    have hstep : chunkStep cs co text 0 = (pyStrip text, (cs : Int) - co) := by
      unfold chunkStep
      rw [if_neg (by omega)]
      have hslice : pySlice text 0 ((0 : Int) + cs) = text := by
        unfold pySlice pyBound
        rw [if_neg (by omega), if_neg (by omega)]
        simp
        omega
      rw [hslice]
      simp [zero_add]
    rw [hstep]
    rcases Nat.exists_eq_succ_of_ne_zero (Nat.pos_iff_ne_zero.mp hpos) with ⟨m, hm⟩
    rw [hm, chunkTextFuel]
    rw [if_neg (by omega)]
    have hfalse : (pyStrip text).isEmpty = false := by
      cases hps : pyStrip text
      · exact absurd hps hne
      · rfl
    simp [List.filter_cons, hfalse]

/-- Witness for C9's amended theorem: `chunkSize = 10`, `overlap = 2`,
empty input and the 4-character text `"hiya"`. -/
theorem chunkText_short_single_witness :
    chunkText 10 2 [] = some [] ∧
      chunkText 10 2 "hiya".data = some [pyStrip "hiya".data] := by
  obtain ⟨h1, h2⟩ := chunkText_short_single 10 2 "hiya".data (by decide) (by decide)
  exact ⟨h1, h2 (by decide) (by decide)⟩

/-! ## MD5 (RFC 1321), as used by `hashlib.md5` in `DocQAApp.get_file_hash`

`get_file_hash` (main.py lines 41-49) is
`hashlib.md5("|".join(sorted(file_paths)).encode()).hexdigest()`.
The full digest is implemented here so that claims about fingerprint
equality/inequality are settled against the real hash, not a stand-in. -/

namespace MD5

/-- `2^32`. -/
def M32 : Nat := 4294967296

/-- The 64 sine-derived round constants of RFC 1321. -/
def K : List Nat :=
  [0xd76aa478, 0xe8c7b756, 0x242070db, 0xc1bdceee,
   0xf57c0faf, 0x4787c62a, 0xa8304613, 0xfd469501,
   0x698098d8, 0x8b44f7af, 0xffff5bb1, 0x895cd7be,
   0x6b901122, 0xfd987193, 0xa679438e, 0x49b40821,
   0xf61e2562, 0xc040b340, 0x265e5a51, 0xe9b6c7aa,
   0xd62f105d, 0x02441453, 0xd8a1e681, 0xe7d3fbc8,
   0x21e1cde6, 0xc33707d6, 0xf4d50d87, 0x455a14ed,
   0xa9e3e905, 0xfcefa3f8, 0x676f02d9, 0x8d2a4c8a,
   0xfffa3942, 0x8771f681, 0x6d9d6122, 0xfde5380c,
   0xa4beea44, 0x4bdecfa9, 0xf6bb4b60, 0xbebfbc70,
   0x289b7ec6, 0xeaa127fa, 0xd4ef3085, 0x04881d05,
   0xd9d4d039, 0xe6db99e5, 0x1fa27cf8, 0xc4ac5665,
   0xf4292244, 0x432aff97, 0xab9423a7, 0xfc93a039,
   0x655b59c3, 0x8f0ccc92, 0xffeff47d, 0x85845dd1,
   0x6fa87e4f, 0xfe2ce6e0, 0xa3014314, 0x4e0811a1,
   0xf7537e82, 0xbd3af235, 0x2ad7d2bb, 0xeb86d391]

/-- The per-round left-rotation amounts. -/
def S : List Nat :=
  [7, 12, 17, 22, 7, 12, 17, 22, 7, 12, 17, 22, 7, 12, 17, 22,
   5, 9, 14, 20, 5, 9, 14, 20, 5, 9, 14, 20, 5, 9, 14, 20,
   4, 11, 16, 23, 4, 11, 16, 23, 4, 11, 16, 23, 4, 11, 16, 23,
   6, 10, 15, 21, 6, 10, 15, 21, 6, 10, 15, 21, 6, 10, 15, 21]

/-- 32-bit complement. -/
def not32 (x : Nat) : Nat := x ^^^ 0xffffffff

/-- 32-bit left rotation. -/
def rotl (x n : Nat) : Nat := ((x <<< n) % M32) ||| (x >>> (32 - n))

/-- Little-endian 32-bit words from a byte list (length a multiple of 4). -/
def leWords : List Nat → List Nat
  | b0 :: b1 :: b2 :: b3 :: rest =>
    (b0 + 256 * b1 + 65536 * b2 + 16777216 * b3) :: leWords rest
  | _ => []

/-- Little-endian bytes of a 32-bit word. -/
def leBytes4 (w : Nat) : List Nat :=
  [w % 256, w / 256 % 256, w / 65536 % 256, w / 16777216 % 256]

/-- Little-endian bytes of a 64-bit word. -/
def leBytes8 (w : Nat) : List Nat := leBytes4 (w % M32) ++ leBytes4 (w / M32)

/-- One of the 64 MD5 rounds applied to state `(a, b, c, d)` with message
words `m`. -/
def md5Round (m : List Nat) (st : Nat × Nat × Nat × Nat) (i : Nat) :
    Nat × Nat × Nat × Nat :=
  let (a, b, c, d) := st
  let f :=
    if i < 16 then (b &&& c) ||| (not32 b &&& d)
    else if i < 32 then (d &&& b) ||| (not32 d &&& c)
    else if i < 48 then b ^^^ c ^^^ d
    else c ^^^ (b ||| not32 d)
  let g :=
    if i < 16 then i
    else if i < 32 then (5 * i + 1) % 16
    else if i < 48 then (3 * i + 5) % 16
    else (7 * i) % 16
  let tmp := (a + f + K.getD i 0 + m.getD g 0) % M32
  (d, (b + rotl tmp (S.getD i 0)) % M32, b, c)

/-- Process one 64-byte block. -/
def processBlock (st : Nat × Nat × Nat × Nat) (block : List Nat) :
    Nat × Nat × Nat × Nat :=
  let m := leWords block
  let r := (List.range 64).foldl (md5Round m) st
  ((st.1 + r.1) % M32, (st.2.1 + r.2.1) % M32,
   (st.2.2.1 + r.2.2.1) % M32, (st.2.2.2 + r.2.2.2) % M32)

/-- RFC 1321 padding: `0x80`, zeros to 56 mod 64, then the bit length as a
little-endian 64-bit integer. -/
def pad (msg : List Nat) : List Nat :=
  msg ++ [0x80] ++
    List.replicate ((120 - (msg.length + 1) % 64) % 64) 0 ++
    leBytes8 ((8 * msg.length) % 2 ^ 64)

/-- Split into 64-byte blocks (structural recursion on a fuel bound so the
kernel can evaluate it; `fuel ≥ length` always suffices since each step
consumes a non-empty prefix). -/
def blocks64Aux : Nat → List Nat → List (List Nat)
  | _, [] => []
  | 0, _ :: _ => []
  | fuel + 1, l@(_ :: _) => l.take 64 :: blocks64Aux fuel (l.drop 64)

/-- Split into 64-byte blocks. -/
def blocks64 (l : List Nat) : List (List Nat) := blocks64Aux l.length l

/-- MD5 digest (16 bytes) of a byte message. -/
def md5Bytes (msg : List Nat) : List Nat :=
  let r := (blocks64 (pad msg)).foldl processBlock
    (0x67452301, 0xefcdab89, 0x98badcfe, 0x10325476)
  leBytes4 r.1 ++ leBytes4 r.2.1 ++ leBytes4 r.2.2.1 ++ leBytes4 r.2.2.2

/-- Lower-case hex digit. -/
def hexDigit (n : Nat) : Char :=
  if n < 10 then Char.ofNat (48 + n) else Char.ofNat (87 + n)

/-- `hexdigest()`: the digest as lower-case hex characters. -/
def md5Hex (msg : List Nat) : List Char :=
  (md5Bytes msg).foldr (fun b acc => hexDigit (b / 16) :: hexDigit (b % 16) :: acc) []

end MD5

/-- UTF-8 encoding of a character sequence (Python `str.encode()`). -/
def utf8Bytes (s : List Char) : List Nat :=
  s.foldr
    (fun c acc =>
      let n := c.toNat
      (if n < 0x80 then [n]
       else if n < 0x800 then [0xc0 + n / 64, 0x80 + n % 64]
       else if n < 0x10000 then
         [0xe0 + n / 4096, 0x80 + n / 64 % 64, 0x80 + n % 64]
       else
         [0xf0 + n / 262144, 0x80 + n / 4096 % 64, 0x80 + n / 64 % 64,
          0x80 + n % 64]) ++ acc)
    []

/-! ## `DocQAApp.get_file_hash` and `DocQAApp.needs_reindex`
(main.py lines 41-49 and 75-82)

```python
sorted_paths = sorted(file_paths)
combined = "|".join(sorted_paths)
return hashlib.md5(combined.encode()).hexdigest()
```
-/

/-- Python `sorted` on a list of strings: lexicographic by code point,
which is exactly the lexicographic order on `List Char`.  Python uses a
stable sort, but over a total order whose equivalent elements are equal
strings every correct sort algorithm produces the same output list, so
insertion sort is an exact model of the result. -/
def pySorted (paths : List (List Char)) : List (List Char) :=
  paths.insertionSort (· ≤ ·)

/-- `DocQAApp.get_file_hash` (the `isinstance(str)` wrapping is handled by
callers passing a list): `"|".join(sorted(paths))`, UTF-8 encoded, MD5,
hexdigest. -/
def getFileHash (filePaths : List (List Char)) : List Char :=
  MD5.md5Hex (utf8Bytes (List.intercalate "|".data (pySorted filePaths)))

/-- `DocQAApp.needs_reindex`: `True` when no index metadata is persisted,
else whether the stored `file_hash` differs from the fresh one.  The stored
metadata is modelled as the pair written by `save_index_metadata`. -/
def needsReindex (storedMeta : Option (List (List Char) × List Char))
    (filePaths : List (List Char)) : Bool :=
  match storedMeta with
  | none => true
  | some (_, storedHash) => storedHash != getFileHash filePaths

/-- Sorting is invariant under permutation of the input. -/
lemma pySorted_perm_eq (l l' : List (List Char)) (h : l.Perm l') :
    pySorted l = pySorted l' := by
  apply List.eq_of_perm_of_sorted (r := (· ≤ · : List Char → List Char → Prop))
    ((List.perm_insertionSort _ l).trans (h.trans (List.perm_insertionSort _ l').symm))
  · exact List.sorted_insertionSort _ _
  · exact List.sorted_insertionSort _ _

/-- C5 counterexample: the fingerprint is NOT invariant under duplicate
entries — `get_file_hash(["a"])` hashes `"a"` while
`get_file_hash(["a", "a"])` hashes `"a|a"` (`sorted` does not deduplicate),
and the two MD5 digests differ, so `needs_reindex` flips its answer for the
same source set with a duplicated entry. -/
theorem getFileHash_dup_cex :
    getFileHash ["a".data] ≠ getFileHash ["a".data, "a".data] ∧
      needsReindex (some (["a".data], getFileHash ["a".data])) ["a".data] = false ∧
      needsReindex (some (["a".data], getFileHash ["a".data]))
        ["a".data, "a".data] = true := by
  refine ⟨by decide, by decide, by decide⟩

/-- C5 (amended): the fingerprint is a function of the source identifier
list up to ordering only — invariant under every permutation (hence
`needs_reindex` answers identically for any reordering), but duplicate
entries change it. -/
theorem getFileHash_perm_invariant (l l' : List (List Char)) (h : l.Perm l') :
    getFileHash l = getFileHash l' ∧
      ∀ md, needsReindex md l = needsReindex md l' := by
  have hs : pySorted l = pySorted l' := pySorted_perm_eq l l' h
  have hh : getFileHash l = getFileHash l' := by
    unfold getFileHash
    rw [hs]
  refine ⟨hh, fun md => ?_⟩
  unfold needsReindex
  cases md with
  | none => rfl
  | some p => rw [hh]

/-- Witness for C5's amended theorem at the two-element reordering
`["a", "b"]` vs `["b", "a"]`. -/
theorem getFileHash_perm_invariant_witness :
    getFileHash ["a".data, "b".data] = getFileHash ["b".data, "a".data] ∧
      ∀ md, needsReindex md ["a".data, "b".data] =
        needsReindex md ["b".data, "a".data] :=
  getFileHash_perm_invariant ["a".data, "b".data] ["b".data, "a".data]
    (List.Perm.swap "b".data "a".data [])

/-! ## Data model: `DocumentProcessor` state and the FAISS flat-L2 index

`DocumentProcessor.__init__` sets `self.index = None`, `self.chunks = []`,
`self.metadata = []`.  `faiss.IndexFlatL2(d)` is an exact flat index over
vectors of dimension `d`; `ntotal` is the number of stored vectors.
Embedding vectors and L2 distances are modelled over `Rat`. -/

/-- One metadata dict: `{"source": ..., "chunk_id": ...}` for documents,
`{"source": ..., "title": ..., "chunk_id": ...}` for web content. -/
structure ChunkMeta where
  source : List Char
  title : Option (List Char) := none
  chunk_id : Nat
deriving DecidableEq

/-- `faiss.IndexFlatL2`. -/
structure FaissIndex where
  dim : Nat
  vecs : List (List Rat)
deriving DecidableEq

/-- `index.ntotal`. -/
def FaissIndex.ntotal (idx : FaissIndex) : Nat := idx.vecs.length

/-- The mutable indexing state of a `DocumentProcessor`:
`(self.chunks, self.metadata, self.index)`. -/
structure Store where
  chunks : List (List Char)
  metadata : List ChunkMeta
  index : Option FaissIndex
deriving DecidableEq

/-- A fresh `DocumentProcessor`. -/
def emptyStore : Store := ⟨[], [], none⟩

/-- Squared L2 distance (what `IndexFlatL2` reports). -/
def l2sq (a b : List Rat) : Rat :=
  ((a.zip b).map (fun p => (p.1 - p.2) * (p.1 - p.2))).sum

/-- The exact float value of `FLT_MAX`, which FAISS uses as the distance of
padding slots when fewer than `k` results exist. -/
def fltMax : Rat := 2 ^ 128 - 2 ^ 104

/-- Result ordering of a flat L2 scan: ascending distance, ties by
ascending id. -/
def searchRel (a b : Int × Rat) : Prop :=
  a.2 < b.2 ∨ (a.2 = b.2 ∧ a.1 ≤ b.1)

instance : DecidableRel searchRel := fun a b =>
  inferInstanceAs (Decidable (a.2 < b.2 ∨ (a.2 = b.2 ∧ a.1 ≤ b.1)))

instance : IsTotal (Int × Rat) searchRel :=
  ⟨fun a b => by
    unfold searchRel
    rcases lt_trichotomy a.2 b.2 with h | h | h
    · exact Or.inl (Or.inl h)
    · rcases le_total a.1 b.1 with h' | h'
      · exact Or.inl (Or.inr ⟨h, h'⟩)
      · exact Or.inr (Or.inr ⟨h.symm, h'⟩)
    · exact Or.inr (Or.inl h)⟩

instance : IsTrans (Int × Rat) searchRel :=
  ⟨fun a b c hab hbc => by
    unfold searchRel at *
    rcases hab with h1 | ⟨h1, h1'⟩ <;> rcases hbc with h2 | ⟨h2, h2'⟩
    · exact Or.inl (h1.trans h2)
    · exact Or.inl (h2 ▸ h1)
    · exact Or.inl (h1 ▸ h2)
    · exact Or.inr ⟨h1.trans h2, h1'.trans h2'⟩⟩

/-- `index.search(query, k)` on `IndexFlatL2`: exact scan, `k` best
`(id, distance)` pairs ascending by distance; when `ntotal < k` the
remaining slots are padded with id `-1` and distance `FLT_MAX`. -/
def faissSearch (idx : FaissIndex) (q : List Rat) (k : Nat) :
    List (Int × Rat) :=
  let scored := (List.range idx.vecs.length).map
    (fun (i : Nat) => ((i : Int), l2sq q (idx.vecs.getD i [])))
  (scored.insertionSort searchRel).take k ++
    List.replicate (k - idx.vecs.length) ((-1 : Int), fltMax)

/-- Python sequence indexing `l[i]` with a possibly negative index;
`none` models `IndexError`. -/
def pyGet {α : Type} (l : List α) (i : Int) : Option α :=
  if 0 ≤ i then l.get? i.toNat
  else if 0 ≤ i + (l.length : Int) then l.get? (i + l.length).toNat
  else none

/-- The result-collection loop of `DocumentProcessor.search`
(document_processor.py lines 231-235):

```python
for dist, idx in zip(distances[0], indices[0]):
    if idx < len(self.chunks):
        results.append((self.chunks[idx], float(dist), self.metadata[idx]))
```

`none` models an `IndexError` escaping the loop (possible because the
guard `idx < len(self.chunks)` also admits the negative padding id `-1`). -/
def searchLoop (chunks : List (List Char)) (meta : List ChunkMeta) :
    List (Int × Rat) → Option (List (List Char × Rat × ChunkMeta))
  | [] => some []
  | (i, d) :: rest =>
    if i < (chunks.length : Int) then
      match pyGet chunks i, pyGet meta i with
      | some c, some m =>
        match searchLoop chunks meta rest with
        | some res => some ((c, d, m) :: res)
        | none => none
      | _, _ => none
    else searchLoop chunks meta rest

/-- `DocumentProcessor.search` (lines 223-236).  The query embedding
`model.encode([query])[0]` is the external provider's output, passed in as
`qvec`.  `none` models an uncaught exception. -/
def search (st : Store) (qvec : List Rat) (top_k : Nat) :
    Option (List (List Char × Rat × ChunkMeta)) :=
  match st.index with
  | none => some []
  | some idx =>
    if idx.ntotal = 0 then some []
    else searchLoop st.chunks st.metadata (faissSearch idx qvec top_k)

/-! ### Search lemmas (C6) -/

lemma searchRel_le {a b : Int × Rat} (h : searchRel a b) : a.2 ≤ b.2 := by
  rcases h with h | ⟨h, _⟩
  · exact le_of_lt h
  · exact le_of_eq h

lemma pairwise_le_replicate (n : Nat) (a : Rat) :
    List.Pairwise (· ≤ ·) (List.replicate n a) := by
  induction n with
  | zero => simp
  | succ m ih =>
    rw [List.replicate_succ]
    exact List.Pairwise.cons
      (fun b hb => le_of_eq (List.eq_of_mem_replicate hb).symm) ih

lemma getD_mem_of_lt {α : Type} (l : List α) (i : Nat) (d : α)
    (h : i < l.length) : l.getD i d ∈ l := by
  induction l generalizing i with
  | nil => simp at h
  | cons a t ih =>
    cases i with
    | zero => exact List.mem_cons_self _ _
    | succ j =>
      simp only [List.getD_cons_succ]
      exact List.mem_cons_of_mem _ (ih j (by simpa using h))

/-- Python indexing succeeds for `-1 ≤ i < len` on a non-empty list. -/
lemma pyGet_total {α : Type} (l : List α) (i : Int)
    (h1 : -1 ≤ i) (h2 : i < (l.length : Int)) (h3 : 0 < l.length) :
    ∃ x, pyGet l i = some x := by
  unfold pyGet
  by_cases h0 : 0 ≤ i
  · rw [if_pos h0]
    have hlt : i.toNat < l.length := by omega
    exact ⟨_, List.get?_eq_get hlt⟩
  · rw [if_neg h0, if_pos (by omega)]
    have hlt : (i + l.length).toNat < l.length := by omega
    exact ⟨_, List.get?_eq_get hlt⟩

/-- When every returned id is in `[-1, len)` and the store is non-empty and
aligned, the collection loop raises nothing and reproduces the distance
sequence. -/
lemma searchLoop_total (chunks : List (List Char)) (meta : List ChunkMeta)
    (hm : meta.length = chunks.length) (hpos : 0 < chunks.length) :
    ∀ pairs : List (Int × Rat),
      (∀ p ∈ pairs, -1 ≤ p.1 ∧ p.1 < (chunks.length : Int)) →
      ∃ res, searchLoop chunks meta pairs = some res ∧
        res.map (fun t => t.2.1) = pairs.map (fun p => p.2) := by
  intro pairs
  induction pairs with
  | nil => intro _; exact ⟨[], rfl, rfl⟩
  | cons p rest ih =>
    intro hmem
    obtain ⟨i, d⟩ := p
    obtain ⟨h1, h2⟩ := hmem (i, d) (List.mem_cons_self _ rest)
    obtain ⟨c, hc⟩ := pyGet_total chunks i h1 h2 hpos
    obtain ⟨m, hmget⟩ := pyGet_total meta i h1 (by omega) (by omega)
    obtain ⟨res, hres, hdist⟩ :=
      ih (fun q hq => hmem q (List.mem_cons_of_mem _ hq))
    refine ⟨(c, d, m) :: res, ?_, ?_⟩
    · rw [searchLoop]
      rw [if_pos h2, hc, hmget, hres]
    · simp only [List.map_cons, hdist]

/-- Every id returned by the flat search is in `[-1, ntotal)`. -/
lemma faissSearch_id_bounds (idx : FaissIndex) (qvec : List Rat) (k : Nat) :
    ∀ p ∈ faissSearch idx qvec k, -1 ≤ p.1 ∧ p.1 < (idx.ntotal : Int) := by
  intro p hp
  unfold faissSearch at hp
  simp only [List.mem_append] at hp
  rcases hp with hp | hp
  · have hp' := List.mem_of_mem_take hp
    have hmem := (List.perm_insertionSort searchRel _).mem_iff.mp hp'
    simp only [List.mem_map, List.mem_range] at hmem
    obtain ⟨i, hi, rfl⟩ := hmem
    unfold FaissIndex.ntotal
    constructor <;> omega
  · have := List.eq_of_mem_replicate hp
    subst this
    refine ⟨le_refl _, ?_⟩
    have : (0 : Int) ≤ (idx.ntotal : Int) := by positivity
    omega

/-- The distance sequence returned by the flat search is non-decreasing,
provided all true distances fit below the `FLT_MAX` padding value. -/
lemma faissSearch_sorted (idx : FaissIndex) (qvec : List Rat) (k : Nat)
    (hb : ∀ v ∈ idx.vecs, l2sq qvec v ≤ fltMax) :
    List.Pairwise (· ≤ ·) ((faissSearch idx qvec k).map (fun p => p.2)) := by
  unfold faissSearch
  simp only [List.map_append, List.map_replicate]
  rw [List.pairwise_append]
  refine ⟨?_, pairwise_le_replicate _ _, ?_⟩
  · have hs := List.sorted_insertionSort searchRel
      ((List.range idx.vecs.length).map
        (fun (i : Nat) => ((i : Int), l2sq qvec (idx.vecs.getD i []))))
    have ht := hs.sublist (List.take_sublist k _)
    exact ht.map _ (fun a b h => searchRel_le h)
  · intro a ha b hb'
    rw [List.eq_of_mem_replicate hb']
    simp only [List.mem_map] at ha
    obtain ⟨p, hp, rfl⟩ := ha
    have hp' := List.mem_of_mem_take hp
    have hmem := (List.perm_insertionSort searchRel _).mem_iff.mp hp'
    simp only [List.mem_map, List.mem_range] at hmem
    obtain ⟨i, hi, rfl⟩ := hmem
    exact hb _ (getD_mem_of_lt idx.vecs i [] hi)

/-- C6 (amended): on an absent or empty index `search` returns the empty
sequence without raising; on a non-empty aligned store with `k ≥ 1` it
returns a sequence sorted by non-decreasing distance whose length is
exactly `k` (NOT `min(k, ntotal)`: FAISS pads missing results with id `-1`
and distance `FLT_MAX`, and the guard `idx < len(chunks)` admits `-1`,
which Python resolves to the LAST chunk). -/
theorem search_spec (st : Store) (qvec : List Rat) (k : Nat) :
    (st.index = none → search st qvec k = some []) ∧
    (∀ idx, st.index = some idx → idx.ntotal = 0 →
      search st qvec k = some []) ∧
    (∀ idx, st.index = some idx → 0 < idx.ntotal →
      idx.ntotal = st.chunks.length →
      st.metadata.length = st.chunks.length →
      (∀ v ∈ idx.vecs, l2sq qvec v ≤ fltMax) →
      1 ≤ k →
      ∃ l, search st qvec k = some l ∧ l.length = k ∧
        List.Sorted (· ≤ ·) (l.map (fun t => t.2.1))) := by
  refine ⟨fun h => by unfold search; rw [h], ?_, ?_⟩
  · intro idx hidx hz
    unfold search
    rw [hidx]
    dsimp only
    rw [if_pos hz]
  · intro idx hidx hpos hn hm hb hk
    unfold search
    rw [hidx]
    dsimp only
    rw [if_neg (by omega)]
    obtain ⟨res, hres, hdist⟩ := searchLoop_total st.chunks st.metadata hm
      (by omega) (faissSearch idx qvec k)
      (fun p hp => by
        have := faissSearch_id_bounds idx qvec k p hp
        exact ⟨this.1, by rw [← hn]; exact this.2⟩)
    refine ⟨res, hres, ?_, ?_⟩
    · have hlen := congrArg List.length hdist
      simp only [List.length_map] at hlen
      rw [hlen]
      unfold faissSearch
      simp only [List.length_append, List.length_take, List.length_replicate,
        List.length_insertionSort, List.length_map, List.length_range]
      unfold FaissIndex.ntotal at hpos
      omega
    · rw [hdist]
      exact faissSearch_sorted idx qvec k hb

/-- A store holding exactly one indexed chunk. -/
def oneChunkStore : Store :=
  ⟨["c0".data], [⟨"d".data, none, 0⟩], some ⟨1, [[0]]⟩⟩

/-- C6 counterexample: on a store with `ntotal = 1`, `search(q, 3)` returns
THREE results, not at most `min(3, 1) = 1`: the two FAISS padding slots
`(id = -1, dist = FLT_MAX)` pass the guard `idx < len(chunks)` and Python's
negative indexing resolves them to the last chunk. -/
theorem search_exceeds_min_cex :
    search oneChunkStore [0] 3 =
      some [("c0".data, 0, ⟨"d".data, none, 0⟩),
            ("c0".data, fltMax, ⟨"d".data, none, 0⟩),
            ("c0".data, fltMax, ⟨"d".data, none, 0⟩)] ∧
      ¬ (3 ≤ min 3 (FaissIndex.ntotal ⟨1, [[0]]⟩)) :=
  ⟨by with_unfolding_all rfl, by decide⟩

/-- Witness for C6's amended theorem on `oneChunkStore` with `k = 3`. -/
theorem search_spec_witness :
    ∃ l, search oneChunkStore [0] 3 = some l ∧ l.length = 3 ∧
      List.Sorted (· ≤ ·) (l.map (fun t => t.2.1)) :=
  (search_spec oneChunkStore [0] 3).2.2 ⟨1, [[0]]⟩ rfl (by decide) (by decide)
    (by decide)
    (by
      intro v hv
      simp only [List.mem_singleton] at hv
      subst hv
      simp [l2sq, fltMax]
      norm_num)
    (by decide)

/-! ## `DocumentProcessor.index_document` (document_processor.py lines 184-221)

```python
text = self.load_document(file_path)
if not text:
    return
self.chunks = self.chunk_text(text)
if not self.chunks:
    return
self.metadata = [{"source": file_path, "chunk_id": i} for i in range(len(self.chunks))]
embeddings = self.model.encode(self.chunks, show_progress_bar=True)
if embeddings.ndim == 1:
    embeddings = embeddings.reshape(1, -1)
dimension = embeddings.shape[1]
self.index = faiss.IndexFlatL2(dimension)
self.index.add(embeddings.astype('float32'))
```

`load_document` performs file IO: its result is the `text` parameter.
`model.encode` is the external embedding provider: `encode` returns either
the vector rows of its 2-D output (the `ndim == 1` reshape is a no-op for
a list input) or `.error` for a raised exception.  The result is `none`
when `chunk_text` fails to terminate; `some (.error s)` models an exception
propagating with the object's fields left in state `s`; `some (.ok s)` a
normal return. -/

/-- The metadata list built for a freshly chunked document:
`[{"source": file_path, "chunk_id": i} for i in range(len(chunks))]`. -/
def docMetadata (fp : List Char) (n : Nat) : List ChunkMeta :=
  (List.range n).map (fun i => ⟨fp, none, i⟩)

def indexDocument (cs co : Nat) (st : Store) (filePath text : List Char)
    (encode : List (List Char) → Except Unit (List (List Rat))) :
    Option (Except Store Store) :=
  if text = [] then some (.ok st)
  else
    match chunkText cs co text with
    | none => none
    | some cks =>
      let st1 := { st with chunks := cks }
      if cks = [] then some (.ok st1)
      else
        let st2 := { st1 with metadata := docMetadata filePath cks.length }
        match encode cks with
        | .error _ => some (.error st2)
        | .ok embs =>
          some (.ok { st2 with index := some ⟨(embs.headD []).length, embs⟩ })

/-- The indexing loop of `DocQAApp.load_documents` (main.py lines 169-176):
`index_document` is called once per file, in caller order (the `i == 1`
and `i > 1` branches are identical).  Each document's loaded text is
supplied alongside its path. -/
def loadDocumentsIndexLoop (cs co : Nat) (st : Store)
    (encode : List (List Char) → Except Unit (List (List Rat))) :
    List (List Char × List Char) → Option (Except Store Store)
  | [] => some (.ok st)
  | (fp, text) :: rest =>
    match indexDocument cs co st fp text encode with
    | none => none
    | some (.error s) => some (.error s)
    | some (.ok s) => loadDocumentsIndexLoop cs co s encode rest

/-- `config.py`: `CHUNK_SIZE = 500`. -/
def CHUNK_SIZE : Nat := 500

/-- `config.py`: `CHUNK_OVERLAP = 50`. -/
def CHUNK_OVERLAP : Nat := 50

/-- A benign embedding provider: one dimension-1 vector per chunk. -/
def encodeOnePerChunk (cks : List (List Char)) :
    Except Unit (List (List Rat)) :=
  .ok (cks.map (fun _ => [0]))

/-- C2 (code bug): indexing two well-formed documents leaves the store
holding ONLY the second document's chunks/metadata/vectors —
`index_document` assigns `self.chunks` / `self.metadata` / `self.index`
afresh instead of appending, although the loop in `load_documents`
comments "For subsequent docs, we need to append to existing index". -/
theorem loadDocuments_keeps_only_last :
    loadDocumentsIndexLoop CHUNK_SIZE CHUNK_OVERLAP emptyStore
        encodeOnePerChunk
        [("a.txt".data, "alpha".data), ("b.txt".data, "beta".data)] =
      some (.ok ⟨["beta".data], [⟨"b.txt".data, none, 0⟩],
        some ⟨1, [[0]]⟩⟩) ∧
      ["beta".data] ≠ ["alpha".data, "beta".data] := by
  constructor
  · with_unfolding_all rfl
  · decide

/-- The store whose durable content the C4 counterexample damages. -/
def oldDocStore : Store :=
  ⟨["old".data], [⟨"old.txt".data, none, 0⟩], some ⟨1, [[7]]⟩⟩

/-- C4 counterexample: a whitespace-only (hence non-empty) document makes
`chunk_text` return no chunks; `index_document` has ALREADY overwritten
`self.chunks` with `[]` when it takes the early `return`, leaving
`metadata` and `index` stale — a partial mutation breaking
`len(chunks) == len(metadata)`. -/
theorem indexDocument_partial_mutation_cex :
    indexDocument CHUNK_SIZE CHUNK_OVERLAP oldDocStore "w.txt".data
        "   ".data encodeOnePerChunk =
      some (.ok ⟨[], [⟨"old.txt".data, none, 0⟩], some ⟨1, [[7]]⟩⟩) ∧
      ("   ".data ≠ []) ∧
      (⟨[], [⟨"old.txt".data, none, 0⟩], some ⟨1, [[7]]⟩⟩ : Store) ≠
        oldDocStore ∧
      (Store.chunks ⟨[], [⟨"old.txt".data, none, 0⟩], some ⟨1, [[7]]⟩⟩).length ≠
        (Store.metadata ⟨[], [⟨"old.txt".data, none, 0⟩], some ⟨1, [[7]]⟩⟩).length := by
  refine ⟨by with_unfolding_all rfl, by decide, by decide, by decide⟩

/-- C4 (amended): only the empty-load path is all-or-nothing.  If chunking
yields no chunks, `chunks` is cleared while `metadata` and `index` keep
their prior values; if the embedding call raises, `chunks` and `metadata`
are replaced while `index` keeps its prior value.  On success with
matching cardinality the `len(chunks) == len(metadata) == ntotal`
invariant holds for the new content. -/
theorem indexDocument_mutation_spec (cs co : Nat) (st : Store)
    (fp text : List Char)
    (encode : List (List Char) → Except Unit (List (List Rat))) :
    (text = [] → indexDocument cs co st fp text encode = some (.ok st)) ∧
    (∀ cks, chunkText cs co text = some cks → text ≠ [] → cks = [] →
      indexDocument cs co st fp text encode =
        some (.ok { st with chunks := [] })) ∧
    (∀ cks e, chunkText cs co text = some cks → text ≠ [] → cks ≠ [] →
      encode cks = .error e →
      indexDocument cs co st fp text encode =
        some (.error { st with chunks := cks, metadata := docMetadata fp cks.length })) ∧
    (∀ cks embs, chunkText cs co text = some cks → text ≠ [] → cks ≠ [] →
      encode cks = .ok embs → embs.length = cks.length →
      ∃ S, indexDocument cs co st fp text encode = some (.ok S) ∧
        S.chunks = cks ∧
        S.chunks.length = S.metadata.length ∧
        ∀ idx, S.index = some idx → idx.ntotal = S.chunks.length) := by
  refine ⟨?_, ?_, ?_, ?_⟩
  · intro h
    unfold indexDocument
    rw [if_pos h]
  · intro cks hck ht hc
    unfold indexDocument
    rw [if_neg ht, hck]
    dsimp only
    rw [if_pos hc, hc]
  · intro cks e hck ht hc he
    unfold indexDocument
    rw [if_neg ht, hck]
    dsimp only
    rw [if_neg hc, he]
  · intro cks embs hck ht hc he hlen
    unfold indexDocument
    rw [if_neg ht, hck]
    dsimp only
    rw [if_neg hc, he]
    refine ⟨_, rfl, rfl, ?_, ?_⟩
    · simp [docMetadata, hlen]
    · intro idx hidx
      simp only [Option.some.injEq] at hidx
      subst hidx
      unfold FaissIndex.ntotal
      simp [docMetadata, hlen]

/-- Witness for C4's amended theorem: the empty-load path and a successful
one-chunk ingestion. -/
theorem indexDocument_mutation_spec_witness :
    (indexDocument CHUNK_SIZE CHUNK_OVERLAP emptyStore "d.txt".data []
        encodeOnePerChunk = some (.ok emptyStore)) ∧
    ∃ S, indexDocument CHUNK_SIZE CHUNK_OVERLAP emptyStore "d.txt".data
        "hello".data encodeOnePerChunk = some (.ok S) ∧
      S.chunks = ["hello".data] ∧
      S.chunks.length = S.metadata.length ∧
      ∀ idx, S.index = some idx → idx.ntotal = S.chunks.length := by
  constructor
  · exact (indexDocument_mutation_spec CHUNK_SIZE CHUNK_OVERLAP emptyStore
      "d.txt".data [] encodeOnePerChunk).1 rfl
  · obtain ⟨S, h1, h2, h3, h4⟩ :=
      (indexDocument_mutation_spec CHUNK_SIZE CHUNK_OVERLAP emptyStore
        "d.txt".data "hello".data encodeOnePerChunk).2.2.2
        ["hello".data] [[0]] (by decide) (by decide) (by decide) rfl
        (by decide)
    exact ⟨S, h1, h2, h3, h4⟩

/-! ## Persistence: `save_index` / `load_index`
(document_processor.py lines 238-270)

```python
def save_index(self, index_path):
    if self.index is None:
        print("No index to save"); return
    faiss.write_index(self.index, index_path)
    metadata_path = index_path.replace('.faiss', '_metadata.pkl')
    with open(metadata_path, 'wb') as f:
        pickle.dump({'chunks': self.chunks, 'metadata': self.metadata}, f)

def load_index(self, index_path):
    if not os.path.exists(index_path):
        print(...); return False
    self.index = faiss.read_index(index_path)
    metadata_path = index_path.replace('.faiss', '_metadata.pkl')
    with open(metadata_path, 'rb') as f:
        data = pickle.load(f)
        self.chunks = data['chunks']; self.metadata = data['metadata']
    print(...); return True
```

The file system is a map from paths to blobs; a blob records which writer
produced it (`faiss.write_index` output vs a pickle), since each reader
raises on the other's format. -/

/-- Python `str.replace(old, new)` (all non-overlapping occurrences, left
to right).  Structural recursion on a fuel bound `≥ length`; the source
only ever calls it with the non-empty pattern `'.faiss'`. -/
def pyReplaceAux (pat rep : List Char) : Nat → List Char → List Char
  | _, [] => []
  | 0, s => s
  | fuel + 1, c :: rest =>
    if pat ≠ [] ∧ pat.isPrefixOf (c :: rest) then
      rep ++ pyReplaceAux pat rep fuel ((c :: rest).drop pat.length)
    else c :: pyReplaceAux pat rep fuel rest

/-- Python `s.replace(pat, rep)`. -/
def pyReplace (s pat rep : List Char) : List Char :=
  pyReplaceAux pat rep s.length s

/-- The sidecar path `index_path.replace('.faiss', '_metadata.pkl')`. -/
def metadataPath (indexPath : List Char) : List Char :=
  pyReplace indexPath ".faiss".data "_metadata.pkl".data

/-- On-disk artifacts. -/
inductive Blob where
  | faissBlob (idx : FaissIndex)
  | pickleBlob (chunks : List (List Char)) (metadata : List ChunkMeta)
deriving DecidableEq

/-- A file system: newest write first. -/
def FS : Type := List (List Char × Blob)

/-- Write (create or overwrite). -/
def fsWrite (fs : FS) (p : List Char) (b : Blob) : FS := (p, b) :: fs

/-- Read: latest write to `p`, if any. -/
def fsRead (fs : FS) (p : List Char) : Option Blob :=
  match fs with
  | [] => none
  | (q, b) :: rest => if q = p then some b else fsRead rest p

/-- `DocumentProcessor.save_index`. -/
def saveIndex (st : Store) (fs : FS) (indexPath : List Char) : FS :=
  match st.index with
  | none => fs
  | some idx =>
    fsWrite (fsWrite fs indexPath (.faissBlob idx)) (metadataPath indexPath)
      (.pickleBlob st.chunks st.metadata)

/-- `DocumentProcessor.load_index`.  `.ok (false, st)` is the `return False`
path (state untouched), `.ok (true, st')` the `return True` path;
`.error s` models an exception escaping with the object fields in state
`s` (`faiss.read_index` on a non-index file, a missing metadata sidecar,
or `pickle.load` on non-pickle bytes). -/
def loadIndex (st : Store) (fs : FS) (indexPath : List Char) :
    Except Store (Bool × Store) :=
  match fsRead fs indexPath with
  | none => .ok (false, st)
  | some (.pickleBlob _ _) => .error st
  | some (.faissBlob idx) =>
    match fsRead fs (metadataPath indexPath) with
    | none => .error { st with index := some idx }
    | some (.faissBlob _) => .error { st with index := some idx }
    | some (.pickleBlob cks md) =>
      .ok (true, { st with index := some idx, chunks := cks, metadata := md })

/-! ### Persistence lemmas (C7, C8, C10) -/

/-- Substring occurrence, mirroring the scan of `pyReplaceAux`. -/
def hasSubstr (s pat : List Char) : Bool :=
  match s with
  | [] => false
  | _ :: rest => pat.isPrefixOf s || hasSubstr rest pat

/-- Replacing a pattern that does not occur is the identity. -/
lemma pyReplaceAux_id (pat rep : List Char) :
    ∀ (fuel : Nat) (s : List Char), hasSubstr s pat = false →
      pyReplaceAux pat rep fuel s = s := by
  intro fuel
  induction fuel with
  | zero =>
    intro s _
    cases s <;> rfl
  | succ n ih =>
    intro s hs
    cases s with
    | nil => rfl
    | cons c rest =>
      rw [hasSubstr] at hs
      simp only [Bool.or_eq_false_iff] at hs
      rw [pyReplaceAux]
      rw [if_neg (by simp [hs.1])]
      rw [ih rest hs.2]

/-- C10 step 1: for a path not containing `'.faiss'`, the derived sidecar
path is the path itself. -/
lemma metadataPath_self (p : List Char)
    (h : hasSubstr p ".faiss".data = false) : metadataPath p = p :=
  pyReplaceAux_id _ _ _ p h

/-- `fsRead` after `fsWrite` at the same path. -/
lemma fsRead_fsWrite_self (fs : FS) (p : List Char) (b : Blob) :
    fsRead (fsWrite fs p b) p = some b := by
  unfold fsWrite fsRead
  rw [if_pos rfl]

/-- `fsRead` after `fsWrite` at a different path. -/
lemma fsRead_fsWrite_other (fs : FS) (p q : List Char) (b : Blob)
    (h : p ≠ q) : fsRead (fsWrite fs p b) q = fsRead fs q := by
  unfold fsWrite
  rw [fsRead]
  rw [if_neg h]


/-- Replacement never shortens when the replacement is at least as long as
the pattern. -/
lemma pyReplaceAux_len_ge (pat rep : List Char) (hlen : pat.length ≤ rep.length) :
    ∀ (fuel : Nat) (s : List Char),
      s.length ≤ (pyReplaceAux pat rep fuel s).length := by
  intro fuel
  induction fuel with
  | zero =>
    intro s
    cases s <;> simp [pyReplaceAux]
  | succ n ih =>
    intro s
    cases s with
    | nil => simp [pyReplaceAux]
    | cons c rest =>
      rw [pyReplaceAux]
      by_cases hp : pat ≠ [] ∧ pat.isPrefixOf (c :: rest)
      · rw [if_pos hp]
        have hple : pat.length ≤ (c :: rest).length :=
          (List.isPrefixOf_iff_prefix.mp hp.2).length_le
        have hrec := ih ((c :: rest).drop pat.length)
        simp only [List.length_append, List.length_drop] at *
        omega
      · rw [if_neg hp]
        have hrec := ih rest
        simp only [List.length_cons]
        omega

/-- Replacing an occurring pattern with a strictly longer replacement
strictly lengthens the string. -/
lemma pyReplaceAux_len_gt (pat rep : List Char) (hne : pat ≠ [])
    (hlen : pat.length < rep.length) :
    ∀ (fuel : Nat) (s : List Char), s.length ≤ fuel →
      hasSubstr s pat = true →
      s.length < (pyReplaceAux pat rep fuel s).length := by
  intro fuel
  induction fuel with
  | zero =>
    intro s hf hs
    have : s = [] := List.length_eq_zero.mp (by omega)
    subst this
    simp [hasSubstr] at hs
  | succ n ih =>
    intro s hf hs
    cases s with
    | nil => simp [hasSubstr] at hs
    | cons c rest =>
      rw [hasSubstr] at hs
      rw [pyReplaceAux]
      by_cases hp : pat.isPrefixOf (c :: rest)
      · rw [if_pos ⟨hne, hp⟩]
        have hple : pat.length ≤ (c :: rest).length :=
          (List.isPrefixOf_iff_prefix.mp hp).length_le
        have hrec := pyReplaceAux_len_ge pat rep (le_of_lt hlen) n
          ((c :: rest).drop pat.length)
        simp only [List.length_append, List.length_drop] at *
        omega
      · rw [if_neg (by simp [hp])]
        simp only [hp, Bool.false_or] at hs
        have hrec := ih rest (by simp only [List.length_cons] at hf; omega) hs
        simp only [List.length_cons]
        omega

/-- When the path does contain `'.faiss'`, the sidecar path is distinct
from the index path (it is strictly longer). -/
lemma metadataPath_ne (p : List Char)
    (h : hasSubstr p ".faiss".data = true) : metadataPath p ≠ p := by
  intro he
  have hgt := pyReplaceAux_len_gt ".faiss".data "_metadata.pkl".data
    (by decide) (by decide) p.length p (le_refl _) h
  rw [show pyReplaceAux ".faiss".data "_metadata.pkl".data p.length p
      = metadataPath p from rfl, he] at hgt
  omega

/-- C8 (amended): for every populated store and every path CONTAINING
`'.faiss'`, `save_index` then `load_index` on a fresh processor reproduces
the chunks, metadata, and index exactly, hence identical search results
for any query. -/
theorem saveLoad_roundtrip (st st0 : Store) (fs : FS) (p : List Char)
    (idx : FaissIndex) (hidx : st.index = some idx)
    (hsub : hasSubstr p ".faiss".data = true) :
    ∃ S, loadIndex st0 (saveIndex st fs p) p = .ok (true, S) ∧ S = st ∧
      ∀ qvec k, search S qvec k = search st qvec k := by
  have hne := metadataPath_ne p hsub
  unfold saveIndex
  rw [hidx]
  unfold loadIndex
  rw [fsRead_fsWrite_other _ _ _ _ hne, fsRead_fsWrite_self,
    fsRead_fsWrite_self]
  have hS :
      ({ st0 with index := some idx, chunks := st.chunks, metadata := st.metadata } : Store) = st := by
    cases st
    simp at hidx
    rw [hidx]
  exact ⟨_, rfl, hS, fun qvec k => by rw [hS]⟩

/-- C8 counterexample: for the path `"index.bin"` (no `'.faiss'`
substring), the metadata pickle overwrites the index file just written,
and the subsequent `load_index` raises instead of reproducing the store. -/
theorem saveLoad_roundtrip_cex :
    loadIndex emptyStore (saveIndex oneChunkStore ([] : FS) "index.bin".data)
        "index.bin".data = .error emptyStore ∧
      (Except.error emptyStore : Except Store (Bool × Store)) ≠
        .ok (true, oneChunkStore) := by
  constructor
  · with_unfolding_all rfl
  · intro h
    cases h

/-- Witness for C8's amended theorem at path `"idx.faiss"`. -/
theorem saveLoad_roundtrip_witness :
    ∃ S, loadIndex emptyStore
        (saveIndex oneChunkStore ([] : FS) "idx.faiss".data)
        "idx.faiss".data = .ok (true, S) ∧ S = oneChunkStore ∧
      ∀ qvec k, search S qvec k = search oneChunkStore qvec k :=
  saveLoad_roundtrip oneChunkStore emptyStore ([] : FS) "idx.faiss".data
    ⟨1, [[0]]⟩ rfl (by decide)

/-- C10: for every path without the substring `'.faiss'`, the derived
sidecar path equals the index path itself, so the metadata pickle
overwrites the FAISS index file just written, and a subsequent
`load_index` of that path raises (on unpickled bytes) instead of
reproducing the store. -/
theorem savePath_collision (p : List Char) (st : Store) (fs : FS)
    (idx : FaissIndex) (h : hasSubstr p ".faiss".data = false)
    (hidx : st.index = some idx) :
    metadataPath p = p ∧
    fsRead (saveIndex st fs p) p = some (.pickleBlob st.chunks st.metadata) ∧
    ∀ st0, loadIndex st0 (saveIndex st fs p) p = .error st0 := by
  have hmp := metadataPath_self p h
  have hread : fsRead (saveIndex st fs p) p =
      some (.pickleBlob st.chunks st.metadata) := by
    unfold saveIndex
    rw [hidx, hmp]
    exact fsRead_fsWrite_self _ _ _
  refine ⟨hmp, hread, ?_⟩
  intro st0
  unfold loadIndex
  rw [hread]

/-- Witness for C10 at the concrete path `"index.bin"`. -/
theorem savePath_collision_witness :
    metadataPath "index.bin".data = "index.bin".data ∧
    fsRead (saveIndex oneChunkStore ([] : FS) "index.bin".data)
        "index.bin".data =
      some (.pickleBlob oneChunkStore.chunks oneChunkStore.metadata) ∧
    loadIndex emptyStore (saveIndex oneChunkStore ([] : FS) "index.bin".data)
        "index.bin".data = .error emptyStore := by
  obtain ⟨h1, h2, h3⟩ := savePath_collision "index.bin".data oneChunkStore
    ([] : FS) ⟨1, [[0]]⟩ (by decide) rfl
  exact ⟨h1, h2, h3 emptyStore⟩

/-- A persisted pair whose component lengths disagree: one chunk, two
metadata records. -/
def mismatchedFS : FS :=
  fsWrite (fsWrite ([] : FS) "i.faiss".data (.faissBlob ⟨1, [[0]]⟩))
    "i_metadata.pkl".data
    (.pickleBlob ["a".data] [⟨"s".data, none, 0⟩, ⟨"s".data, none, 1⟩])

/-- C7 counterexample: `load_index` returns `True` (success) on a
persisted structure whose component lengths disagree — the
`len(chunks) == len(metadata) == ntotal` invariant is NOT re-validated on
load. -/
theorem loadIndex_no_validation_cex :
    loadIndex emptyStore mismatchedFS "i.faiss".data =
      .ok (true, ⟨["a".data], [⟨"s".data, none, 0⟩, ⟨"s".data, none, 1⟩],
        some ⟨1, [[0]]⟩⟩) ∧
      (Store.chunks ⟨["a".data], [⟨"s".data, none, 0⟩, ⟨"s".data, none, 1⟩],
        some ⟨1, [[0]]⟩⟩).length ≠
      (Store.metadata ⟨["a".data], [⟨"s".data, none, 0⟩, ⟨"s".data, none, 1⟩],
        some ⟨1, [[0]]⟩⟩).length := by
  constructor
  · with_unfolding_all rfl
  · decide

/-- C7 (amended): `load_index` reports failure (returns `False`, store
untouched) when the persisted index is absent, and raises when the
persisted structure cannot be parsed (either file holding the other
format, or the sidecar missing); but it performs NO length validation, so
a load that returns success carries whatever component lengths were
persisted. -/
theorem loadIndex_spec (st : Store) (fs : FS) (p : List Char) :
    (fsRead fs p = none → loadIndex st fs p = .ok (false, st)) ∧
    (∀ c m, fsRead fs p = some (.pickleBlob c m) →
      loadIndex st fs p = .error st) ∧
    (∀ idx, fsRead fs p = some (.faissBlob idx) →
      fsRead fs (metadataPath p) = none →
      loadIndex st fs p = .error { st with index := some idx }) ∧
    (∀ idx cks md, fsRead fs p = some (.faissBlob idx) →
      fsRead fs (metadataPath p) = some (.pickleBlob cks md) →
      loadIndex st fs p =
        .ok (true, { st with index := some idx, chunks := cks, metadata := md })) := by
  refine ⟨?_, ?_, ?_, ?_⟩
  · intro h
    unfold loadIndex
    rw [h]
  · intro c m h
    unfold loadIndex
    rw [h]
  · intro idx h1 h2
    unfold loadIndex
    rw [h1, h2]
  · intro idx cks md h1 h2
    unfold loadIndex
    rw [h1, h2]

/-- Witness for C7's amended theorem: absent index and a successful
unvalidated load. -/
theorem loadIndex_spec_witness :
    loadIndex emptyStore ([] : FS) "i.faiss".data = .ok (false, emptyStore) ∧
    loadIndex emptyStore mismatchedFS "i.faiss".data =
      .ok (true, ⟨["a".data], [⟨"s".data, none, 0⟩, ⟨"s".data, none, 1⟩], some ⟨1, [[0]]⟩⟩) := by
  constructor
  · exact (loadIndex_spec emptyStore ([] : FS) "i.faiss".data).1 rfl
  · exact (loadIndex_spec emptyStore mismatchedFS "i.faiss".data).2.2.2
      ⟨1, [[0]]⟩ ["a".data] [⟨"s".data, none, 0⟩, ⟨"s".data, none, 1⟩]
      (by with_unfolding_all rfl) (by with_unfolding_all rfl)


/-! ## `DocQAApp.process_web_query` (main.py lines 368-482)

The temporary web-content override: the current `chunks` / `metadata` /
`index` references are saved aside, the fetched page is chunked, embedded
and installed as a temporary index, an interactive loop answers questions
against it, and the three saved references are assigned back — but only in
straight-line code after the loop, with no `try/finally`.

External collaborators: `self.web_browser.browse(url)` returns the
`webData` parameter (`None` on fetch failure); `model.encode` on the web
chunks is `encodeDocs` (`.error` = raised); `model.encode([query])[0]`
inside `search` is `encodeQ`; `llm_handler.generate_response` is `llm`
(`.error` = raised).  `inputs` is the stream the user types; the overall
result is `none` when the program is still blocked (chunking diverges or
the input stream is exhausted while `input()` waits), `some (.error s)`
when an exception escapes with the processor fields in state `s`, and
`some (.ok s)` for a normal return with fields `s`. -/

structure WebData where
  title : List Char
  description : List Char
  text : List Char
deriving DecidableEq

/-- Python `str.lower()` (ASCII). -/
def pyLower (l : List Char) : List Char := l.map Char.toLower

/-- `"\n\n".join(chunk for chunk, dist, meta in results)`. -/
def joinContext (results : List (List Char × Rat × ChunkMeta)) : List Char :=
  List.intercalate ['\n', '\n'] (results.map (fun t => t.1))

/-- The default query substituted for an empty first input. -/
def defaultSummaryQuery : List Char :=
  "Summarize the main content of this page".data

/-- Metadata built for web chunks:
`{"source": url, "title": ..., "chunk_id": i}`. -/
def webMetadata (url title : List Char) (n : Nat) : List ChunkMeta :=
  (List.range n).map (fun i => ⟨url, some title, i⟩)

/-- The interactive question loop (lines 423-477) plus the restore that
follows it (lines 479-481).  `stOv` is the store with the web override
installed; `orig` holds the three saved original references. -/
def webLoop (stOv orig : Store) (encodeQ : List Char → List Rat)
    (llm : List Char → List Char → Except Unit (List Char)) :
    Bool → List (List Char) → Option (Except Store Store)
  | _, [] => none
  | isFirst, inp :: rest =>
    let q0 := pyStrip inp
    if pyLower q0 = "back".data ∨ pyLower q0 = "exit".data then
      some (.ok orig)
    else if q0 = [] ∧ ¬ isFirst then
      webLoop stOv orig encodeQ llm false rest
    else
      let q := if q0 = [] then defaultSummaryQuery else q0
      match search stOv (encodeQ q) 3 with
      | none => some (.error stOv)
      | some results =>
        if results = [] then webLoop stOv orig encodeQ llm false rest
        else
          match llm (joinContext results) q with
          | .error _ => some (.error stOv)
          | .ok _ => webLoop stOv orig encodeQ llm false rest

/-- `DocQAApp.process_web_query`. -/
def processWebQuery (cs co : Nat) (st : Store) (url : List Char)
    (webData : Option WebData)
    (encodeDocs : List (List Char) → Except Unit (List (List Rat)))
    (encodeQ : List Char → List Rat)
    (llm : List Char → List Char → Except Unit (List Char))
    (inputs : List (List Char)) : Option (Except Store Store) :=
  match webData with
  | none => some (.ok st)
  | some wd =>
    match chunkText cs co wd.text with
    | none => none
    | some cks =>
      let st1 :=
        { st with chunks := cks, metadata := webMetadata url wd.title cks.length }
      match encodeDocs cks with
      | .error _ => some (.error st1)
      | .ok embs =>
        webLoop { st1 with index := some ⟨(embs.headD []).length, embs⟩ } st
          encodeQ llm true inputs

/-! ### Override restore lemmas (C1) -/

/-- Every normal return of the question loop restores the saved
references. -/
lemma webLoop_ok (stOv orig : Store) (eQ : List Char → List Rat)
    (llm : List Char → List Char → Except Unit (List Char)) :
    ∀ (inputs : List (List Char)) (b : Bool) (S : Store),
      webLoop stOv orig eQ llm b inputs = some (.ok S) → S = orig := by
  intro inputs
  induction inputs with
  | nil =>
    intro b S h
    simp [webLoop] at h
  | cons inp rest ih =>
    intro b S h
    rw [webLoop] at h
    dsimp only at h
    by_cases h1 : pyLower (pyStrip inp) = "back".data ∨
        pyLower (pyStrip inp) = "exit".data
    · rw [if_pos h1] at h
      simp only [Option.some.injEq, Except.ok.injEq] at h
      exact h.symm
    · rw [if_neg h1] at h
      by_cases h2 : pyStrip inp = [] ∧ ¬ b = true
      · rw [if_pos h2] at h
        exact ih false S h
      · rw [if_neg h2] at h
        set Q := if pyStrip inp = [] then defaultSummaryQuery
          else pyStrip inp with hQ
        rcases hs : search stOv (eQ Q) 3 with _ | results
        · rw [hs] at h
          simp at h
        · rw [hs] at h
          dsimp only at h
          by_cases hr : results = []
          · rw [if_pos hr] at h
            exact ih false S h
          · rw [if_neg hr] at h
            rcases hl : llm (joinContext results) Q with e | resp
            · rw [hl] at h
              simp at h
            · rw [hl] at h
              exact ih false S h

/-- C1 (amended): on every NORMAL exit of `process_web_query` — fetch
failure before the override begins, or user-initiated exit
(`'back'`/`'exit'`) from the question loop — the processor's chunks,
metadata and index are restored to exactly the saved pre-override values.
An exception raised inside the override scope is NOT covered: there is no
`try/finally`, so the error propagates with the override content still
installed. -/
theorem processWebQuery_restores_on_ok (cs co : Nat) (st : Store)
    (url : List Char) (webData : Option WebData)
    (encodeDocs : List (List Char) → Except Unit (List (List Rat)))
    (encodeQ : List Char → List Rat)
    (llm : List Char → List Char → Except Unit (List Char))
    (inputs : List (List Char)) (S : Store)
    (h : processWebQuery cs co st url webData encodeDocs encodeQ llm inputs =
      some (.ok S)) :
    S = st := by
  unfold processWebQuery at h
  rcases webData with _ | wd
  · simp only [Option.some.injEq, Except.ok.injEq] at h
    exact h.symm
  · dsimp only at h
    rcases hc : chunkText cs co wd.text with _ | cks
    · rw [hc] at h
      cases h
    · rw [hc] at h
      dsimp only at h
      rcases he : encodeDocs cks with e | embs
      · rw [he] at h
        simp at h
      · rw [he] at h
        dsimp only at h
        exact webLoop_ok _ _ _ _ inputs true S h

/-- The state `process_web_query` leaves behind when response generation
raises during the override in the C1 counterexample. -/
def webOverrideState : Store :=
  ⟨["hello world".data], [⟨"http://x".data, some "T".data, 0⟩],
    some ⟨1, [[1]]⟩⟩

/-- C1 counterexample: when `generate_response` raises during the override
(one user question, an LLM error), the exception propagates WITHOUT the
restore running — the durable index is left holding the ad hoc web
content, refuting "restored on every exit path". -/
theorem processWebQuery_error_no_restore_cex :
    processWebQuery CHUNK_SIZE CHUNK_OVERLAP oneChunkStore "http://x".data
        (some ⟨"T".data, "D".data, "hello world".data⟩)
        (fun _ => .ok [[1]]) (fun _ => [1]) (fun _ _ => .error ())
        ["q".data] =
      some (.error webOverrideState) ∧
    webOverrideState ≠ oneChunkStore ∧
    webOverrideState.chunks ≠ oneChunkStore.chunks := by
  refine ⟨?_, by decide, by decide⟩
  with_unfolding_all rfl

/-- Witness for C1's amended theorem: a successful question followed by
`'exit'` restores the original store. -/
theorem processWebQuery_restores_witness :
    processWebQuery CHUNK_SIZE CHUNK_OVERLAP oneChunkStore "http://x".data
        (some ⟨"T".data, "D".data, "hello world".data⟩)
        (fun _ => .ok [[1]]) (fun _ => [1]) (fun _ _ => .ok "resp".data)
        ["q".data, "exit".data] = some (.ok oneChunkStore) ∧
    oneChunkStore = oneChunkStore := by
  have hrun : processWebQuery CHUNK_SIZE CHUNK_OVERLAP oneChunkStore
      "http://x".data (some ⟨"T".data, "D".data, "hello world".data⟩)
      (fun _ => .ok [[1]]) (fun _ => [1]) (fun _ _ => .ok "resp".data)
      ["q".data, "exit".data] = some (.ok oneChunkStore) := by
    with_unfolding_all rfl
  exact ⟨hrun, processWebQuery_restores_on_ok CHUNK_SIZE CHUNK_OVERLAP
    oneChunkStore "http://x".data _ _ _ _ _ oneChunkStore hrun⟩


end TalkToDocs
